import Mathlib

/-!
Verification development for python-qpass (a search-and-select front end
for the `pass` password manager).

The command surface lives in `src/qpass/cli.py` and is embedded below
(`processOptions`, `mainRun`, `show_matching_entry`, `edit_matching_entry`,
`list_matching_entries`).  The matching/selection core (`PasswordStore`:
pattern matcher, query engine, selector) is imported by `cli.py` from the
`qpass` package whose source is not part of this tree; those parts are
modelled from the specification, as indicated by their doc comments.

Strings are embedded as `List Char`; `String.data` converts literals.
-/

/-- Lowercase a list of characters (case folding used for case-insensitive
matching). -/
def lc (s : List Char) : List Char := s.map Char.toLower

/-- Modelled from the spec: greedy decision procedure for the ordered
subsequence test used by the Pattern Matcher (missing source:
`PasswordStore` fuzzy matching in the `qpass` package): every character of
the first list appears in the second in the same relative order, not
necessarily contiguously. -/
def isSubseq : List Char → List Char → Bool
  | [], _ => true
  | _ :: _, [] => false
  | p :: ps, c :: cs => if p = c then isSubseq ps cs else isSubseq (p :: ps) cs

/-- Modelled from the spec: case-insensitive ordered-subsequence test for one
sub-pattern against one aligned segment. -/
def subMatch (p s : List Char) : Bool := isSubseq (lc p) (lc s)

/-- Split a character list on the hierarchy separator; mirrors Python
`str.split('/')` (so the empty string yields one empty segment). -/
def splitSlash : List Char → List (List Char)
  | [] => [[]]
  | c :: cs =>
      if c = '/' then [] :: splitSlash cs
      else
        match splitSlash cs with
        | [] => [[c]]
        | s :: ss => (c :: s) :: ss

/-- Modelled from the spec: walk two already-reversed segment lists in step,
requiring a subsequence match position-wise; the pattern list must not be
longer than the segment list. -/
def alignedRev : List (List Char) → List (List Char) → Bool
  | [], _ => true
  | _ :: _, [] => false
  | p :: ps, s :: ss => subMatch p s && alignedRev ps ss

/-- Modelled from the spec: right-aligned comparison of sub-patterns against
the trailing segments of a name (last sub-pattern against last segment,
and so on). -/
def alignedMatch (ps ss : List (List Char)) : Bool :=
  alignedRev ps.reverse ss.reverse

/-- Does the list `s` begin with the list `p`. -/
def startsWithL : List Char → List Char → Bool
  | [], _ => true
  | _ :: _, [] => false
  | p :: ps, c :: cs => p = c && startsWithL ps cs

/-- Modelled from the spec: contiguous-substring occurrence test (the
case-folded substring search of a plain term). -/
def hasSubstr (p : List Char) : List Char → Bool
  | [] => p.isEmpty
  | c :: cs => startsWithL p (c :: cs) || hasSubstr p cs

/-- Modelled from the spec: the Pattern Matcher contract
`matches(term, name)` of the missing `qpass` package.  A term containing a
`/` is a path pattern, split on `/` and matched right-aligned segment-wise
as case-insensitive ordered subsequences; a term without `/` is a plain term
matched as a case-insensitive contiguous substring of the whole name. -/
def term_matches (term name : List Char) : Bool :=
  if '/' ∈ term then alignedMatch (splitSlash term) (splitSlash name)
  else hasSubstr (lc term) (lc name)

/-- Modelled from the spec: the Query Engine contract
`search(terms, catalog)` (missing source: `PasswordStore.smart_search`):
keep every catalog entry that every term matches, preserving catalog
order. -/
def search (terms : List (List Char)) (catalog : List (List Char)) :
    List (List Char) :=
  catalog.filter fun name => terms.all fun t => term_matches t name

/-! ### Correctness of the subsequence and substring decision procedures -/

theorem isSubseq_iff (p s : List Char) :
    isSubseq p s = true ↔ List.Sublist p s := by
  induction s generalizing p with
  | nil =>
      cases p with
      | nil => simp [isSubseq]
      | cons a as => simp [isSubseq, List.sublist_nil]
  | cons c cs ih =>
      cases p with
      | nil => simp [isSubseq, List.nil_sublist]
      | cons a as =>
          by_cases hac : a = c
          · subst hac
            simp [isSubseq, ih, List.cons_sublist_cons]
          · simp only [isSubseq, if_neg hac, ih]
            constructor
            · intro h
              exact h.cons c
            · intro h
              cases h with
              | cons _ h => exact h
              | cons₂ _ h => exact absurd rfl hac

theorem startsWithL_iff (p s : List Char) :
    startsWithL p s = true ↔ ∃ v, s = p ++ v := by
  induction p generalizing s with
  | nil => simp [startsWithL]
  | cons a as ih =>
      cases s with
      | nil =>
          simp [startsWithL]
      | cons c cs =>
          simp only [startsWithL, Bool.and_eq_true, decide_eq_true_eq, ih,
            List.cons_append, List.cons.injEq]
          constructor
          · rintro ⟨rfl, v, rfl⟩
            exact ⟨v, rfl, rfl⟩
          · rintro ⟨v, rfl, rfl⟩
            exact ⟨rfl, v, rfl⟩

theorem hasSubstr_iff (p s : List Char) :
    hasSubstr p s = true ↔ ∃ u v, s = u ++ p ++ v := by
  induction s with
  | nil =>
      simp only [hasSubstr, List.isEmpty_iff]
      constructor
      · rintro rfl
        exact ⟨[], [], rfl⟩
      · rintro ⟨u, v, h⟩
        rcases List.append_eq_nil.mp h.symm with ⟨h1, h2⟩
        exact (List.append_eq_nil.mp h1).2
  | cons c cs ih =>
      simp only [hasSubstr, Bool.or_eq_true, startsWithL_iff, ih]
      constructor
      · rintro (⟨v, hv⟩ | ⟨u, v, huv⟩)
        · exact ⟨[], v, by simpa using hv⟩
        · exact ⟨c :: u, v, by simp [huv]⟩
      · rintro ⟨u, v, huv⟩
        cases u with
        | nil => exact Or.inl ⟨v, by simpa using huv⟩
        | cons x xs =>
            right
            injection huv with h1 h2
            exact ⟨xs, v, h2⟩

theorem alignedRev_iff (P S : List (List Char)) :
    alignedRev P S = true ↔
      (P.length ≤ S.length ∧
        ∀ i, i < P.length → subMatch (P.getD i []) (S.getD i []) = true) := by
  induction P generalizing S with
  | nil => simp [alignedRev]
  | cons p ps ih =>
      cases S with
      | nil => simp [alignedRev]
      | cons s ss =>
          simp only [alignedRev, Bool.and_eq_true, ih, List.length_cons]
          constructor
          · rintro ⟨h1, h2, h3⟩
            refine ⟨by omega, ?_⟩
            intro i hi
            cases i with
            | zero => simpa using h1
            | succ j => simpa using h3 j (by omega)
          · rintro ⟨h1, h2⟩
            refine ⟨by simpa using h2 0 (by omega), by omega, ?_⟩
            intro j hj
            simpa using h2 (j + 1) (by omega)

theorem getD_reverse {α : Type} (l : List α) (d : α) (i : Nat) (h : i < l.length) :
    l.reverse.getD i d = l.getD (l.length - 1 - i) d := by
  have h1 : i < l.reverse.length := by simpa using h
  have h2 : l.length - 1 - i < l.length := by omega
  rw [List.getD_eq_getElem?_getD, List.getD_eq_getElem?_getD,
    List.getElem?_eq_getElem h1, List.getElem?_eq_getElem h2]
  simp

theorem alignedMatch_iff (ps ss : List (List Char)) :
    alignedMatch ps ss = true ↔
      (ps.length ≤ ss.length ∧
        ∀ i, i < ps.length →
          subMatch (ps.getD i []) (ss.getD (ss.length - ps.length + i) []) = true) := by
  unfold alignedMatch
  rw [alignedRev_iff]
  simp only [List.length_reverse]
  constructor
  · rintro ⟨hle, h⟩
    refine ⟨hle, ?_⟩
    intro i hi
    have hrev := h (ps.length - 1 - i) (by omega)
    rw [getD_reverse ps _ _ (by omega), getD_reverse ss _ _ (by omega)] at hrev
    have e1 : ps.length - 1 - (ps.length - 1 - i) = i := by omega
    have e2 : ss.length - 1 - (ps.length - 1 - i) =
        ss.length - ps.length + i := by omega
    rw [e1, e2] at hrev
    exact hrev
  · rintro ⟨hle, h⟩
    refine ⟨hle, ?_⟩
    intro i hi
    rw [getD_reverse ps _ _ (by omega), getD_reverse ss _ _ (by omega)]
    have e2 : ss.length - 1 - i =
        ss.length - ps.length + (ps.length - 1 - i) := by omega
    rw [e2]
    exact h (ps.length - 1 - i) (by omega)

theorem splitSlash_no_sep (s : List Char) (h : '/' ∉ s) : splitSlash s = [s] := by
  induction s with
  | nil => rfl
  | cons c cs ih =>
      have hc : c ≠ '/' := fun e => h (e ▸ List.mem_cons_self c cs)
      have hcs : '/' ∉ cs := fun m => h (List.mem_cons_of_mem c m)
      simp [splitSlash, hc, ih hcs]

/-- C1: for a query term containing at least one separator, `term_matches`
holds iff the sub-patterns (the term split on the separator) are no more
numerous than the name's segments and, right-aligned against the trailing
segments, each sub-pattern is a case-insensitive ordered subsequence of its
aligned segment (an empty sub-pattern matches any segment); in particular
the pattern pe/zbx matches Personal/Zabbix, ba/cc matches
Bank accounts/Creditcard, and three sub-patterns never match a two-segment
name. -/
theorem C1_path_pattern_matching :
    (∀ term name : List Char, '/' ∈ term →
      (term_matches term name = true ↔
        ((splitSlash term).length ≤ (splitSlash name).length ∧
          ∀ i, i < (splitSlash term).length →
            List.Sublist (lc ((splitSlash term).getD i []))
              (lc ((splitSlash name).getD
                ((splitSlash name).length - (splitSlash term).length + i) [])))))
    ∧ term_matches ("pe/zbx".data) ("Personal/Zabbix".data) = true
    ∧ term_matches ("ba/cc".data) ("Bank accounts/Creditcard".data) = true
    ∧ (∀ term name : List Char, (splitSlash term).length = 3 →
        (splitSlash name).length = 2 → term_matches term name = false) := by
  have main : ∀ term name : List Char, '/' ∈ term →
      (term_matches term name = true ↔
        ((splitSlash term).length ≤ (splitSlash name).length ∧
          ∀ i, i < (splitSlash term).length →
            List.Sublist (lc ((splitSlash term).getD i []))
              (lc ((splitSlash name).getD
                ((splitSlash name).length - (splitSlash term).length + i) [])))) := by
    intro term name h
    have hrw : term_matches term name =
        alignedMatch (splitSlash term) (splitSlash name) := by
      simp [term_matches, h]
    rw [hrw, alignedMatch_iff]
    simp only [subMatch, isSubseq_iff]
  refine ⟨main, by decide, by decide, ?_⟩
  intro term name h3 h2
  by_cases hs : '/' ∈ term
  · cases hb : term_matches term name with
    | false => rfl
    | true =>
        exfalso
        have hle := ((main term name hs).mp hb).1
        rw [h3, h2] at hle
        omega
  · exfalso
    rw [splitSlash_no_sep term hs] at h3
    simp at h3

/-- Witness for C1: a three-sub-pattern term against a two-segment name. -/
theorem C1_path_pattern_matching_witness :
    term_matches ("a/b/c".data) ("x/y".data) = false :=
  C1_path_pattern_matching.2.2.2 ("a/b/c".data) ("x/y".data)
    (by decide) (by decide)

/-- C2: a query term with no separator matches a name iff the case-folded
term occurs as a contiguous substring of the case-folded name; when it is
not a substring of the case folding of the name, `term_matches` is false. -/
theorem C2_plain_term_matching :
    ∀ term name : List Char, '/' ∉ term →
      (term_matches term name = true ↔
        ∃ u v, lc name = u ++ lc term ++ v) := by
  intro term name h
  have hrw : term_matches term name = hasSubstr (lc term) (lc name) := by
    simp [term_matches, h]
  rw [hrw, hasSubstr_iff]

/-- Witness for C2: the plain term nal inside Personal/Zabbix. -/
theorem C2_plain_term_matching_witness :
    ∃ u v, lc ("Personal/Zabbix".data) = u ++ lc ("nal".data) ++ v :=
  (C2_plain_term_matching ("nal".data) ("Personal/Zabbix".data)
    (by decide)).mp (by decide)

/-- C3: `search` returns exactly the catalog entries matched by every
supplied term (AND semantics): a membership characterization, the binary
set-intersection law, and the whole catalog for an empty term list. -/
theorem C3_search_and_semantics :
    (∀ (terms catalog : List (List Char)) (name : List Char),
      name ∈ search terms catalog ↔
        (name ∈ catalog ∧ ∀ t ∈ terms, term_matches t name = true))
    ∧ (∀ (t1 t2 : List Char) (catalog : List (List Char)) (name : List Char),
      name ∈ search [t1, t2] catalog ↔
        (name ∈ search [t1] catalog ∧ name ∈ search [t2] catalog))
    ∧ (∀ catalog : List (List Char), search [] catalog = catalog) := by
  have mem : ∀ (terms catalog : List (List Char)) (name : List Char),
      name ∈ search terms catalog ↔
        (name ∈ catalog ∧ ∀ t ∈ terms, term_matches t name = true) := by
    intro terms catalog name
    simp [search, List.mem_filter, List.all_eq_true]
  refine ⟨mem, ?_, ?_⟩
  · intro t1 t2 catalog name
    simp only [mem, List.forall_mem_cons, List.forall_mem_singleton,
      List.forall_mem_nil]
    tauto
  · intro catalog
    simp [search]

/-- Witness for C3: an empty term list returns the whole catalog. -/
theorem C3_search_and_semantics_witness :
    search [] [("Personal/Zabbix".data)] = [("Personal/Zabbix".data)] :=
  C3_search_and_semantics.2.2 [("Personal/Zabbix".data)]

/-- C5: `search` yields an order-preserving sub-sequence of the catalog
(no re-sorting, no duplicates beyond those of the catalog) and is
deterministic: two runs on the same query and catalog coincide. -/
theorem C5_search_order_preserving :
    (∀ terms catalog : List (List Char),
      List.Sublist (search terms catalog) catalog)
    ∧ (∀ (terms catalog : List (List Char)) (name : List Char),
      (search terms catalog).count name ≤ catalog.count name)
    ∧ (∀ (terms catalog r1 r2 : List (List Char)),
      r1 = search terms catalog → r2 = search terms catalog → r1 = r2) := by
  refine ⟨fun terms catalog => List.filter_sublist catalog, ?_, ?_⟩
  · intro terms catalog name
    exact (List.filter_sublist catalog).count_le name
  · intro terms catalog r1 r2 h1 h2
    rw [h1, h2]

/-- Witness for C5: determinism applied at a concrete query and catalog. -/
theorem C5_search_order_preserving_witness :
    search [("p".data)] [("Personal".data)] = [("Personal".data)] :=
  C5_search_order_preserving.2.2 [("p".data)] [("Personal".data)]
    (search [("p".data)] [("Personal".data)]) [("Personal".data)]
    rfl (by decide)

/-- Responses fed to the Selector's injected prompt capability: an
interactive read either yields text or is interrupted by the user. -/
inductive PromptInput where
  | text (s : List Char)
  | interrupt
deriving DecidableEq

/-- Failure kinds of the resolution core, from the spec's error taxonomy. -/
inductive SelectError where
  | noMatch
  | selectionAborted
  | cancelled
deriving DecidableEq

/-- Numeric value of a decimal digit character, if it is one. -/
def digitVal (c : Char) : Option Nat :=
  if '0' ≤ c ∧ c ≤ '9' then some (c.toNat - '0'.toNat) else none

/-- Accumulating parser for a run of decimal digits; any non-digit fails. -/
def parseNatAux : List Char → Nat → Option Nat
  | [], acc => some acc
  | c :: cs, acc =>
      match digitVal c with
      | some d => parseNatAux cs (acc * 10 + d)
      | none => none

/-- Modelled from the spec: parse a bare decimal number; an empty response
fails. -/
def parseNat : List Char → Option Nat
  | [] => none
  | c :: cs => parseNatAux (c :: cs) 0

/-- Modelled from the spec: interpret a prompt response against `n` listed
choices: accept a bare 1-based number within range; reject out-of-range
numbers, empty responses and unparseable text. -/
def parseSelection (s : List Char) (n : Nat) : Option Nat :=
  match parseNat s with
  | some v => if 1 ≤ v ∧ v ≤ n then some v else none
  | none => none

/-- Modelled from the spec: a response that triggers a re-prompt (neither a
valid selection nor an interrupt). -/
def isInvalidFor (n : Nat) : PromptInput → Bool
  | PromptInput.text s => (parseSelection s n).isNone
  | PromptInput.interrupt => false

/-- Modelled from the spec: the Selector's interactive disambiguation loop
(missing source: the interactive choice of `PasswordStore.select_entry`).
Each iteration invokes the prompt capability once (the second component
counts invocations) and consumes the next response (an exhausted response
list reads as an empty response); a valid 1-based number selects that entry,
an interrupt propagates immediately as cancellation, and anything else
re-prompts until the retry bound is exhausted, aborting the selection. -/
def resolveLoop (ms : List (List Char)) :
    List PromptInput → Nat → Except SelectError (List Char) × Nat
  | _, 0 => (Except.error SelectError.selectionAborted, 0)
  | rs, fuel + 1 =>
      match rs.headD (PromptInput.text []) with
      | PromptInput.interrupt => (Except.error SelectError.cancelled, 1)
      | PromptInput.text s =>
          match parseSelection s ms.length with
          | some v => (Except.ok (ms.getD (v - 1) []), 1)
          | none =>
              let rc := resolveLoop ms rs.tail fuel
              (rc.1, rc.2 + 1)

/-- Modelled from the spec: the Selector contract
`resolve(matches, prompt_fn)`: zero matches fail with `NoMatchError` without
prompting, a unique match is returned without prompting, and several matches
enter the prompt loop with at most `bound` prompts. -/
def resolve (ms : List (List Char)) (responses : List PromptInput)
    (bound : Nat) : Except SelectError (List Char) × Nat :=
  match ms with
  | [] => (Except.error SelectError.noMatch, 0)
  | [m] => (Except.ok m, 0)
  | _ :: _ :: _ => resolveLoop ms responses bound

theorem resolveLoop_all_invalid (ms : List (List Char)) (rs : List PromptInput)
    (bound : Nat) (h : ∀ r ∈ rs, isInvalidFor ms.length r = true) :
    resolveLoop ms rs bound = (Except.error SelectError.selectionAborted, bound) := by
  induction bound generalizing rs with
  | zero => rfl
  | succ f ih =>
      have htail : ∀ r ∈ rs.tail, isInvalidFor ms.length r = true := by
        intro r hr
        exact h r (List.mem_of_mem_tail hr)
      cases rs with
      | nil =>
          have hnone : parseSelection [] ms.length = none := rfl
          simp [resolveLoop, hnone, ih [] htail]
      | cons r rs' =>
          have hr := h r (List.mem_cons_self r rs')
          cases r with
          | interrupt => simp [isInvalidFor] at hr
          | text s =>
              have hnone : parseSelection s ms.length = none := by
                simpa [isInvalidFor, Option.isNone_iff_eq_none] using hr
              simp [resolveLoop, hnone, ih rs' (by simpa using htail)]

theorem resolveLoop_prompts_once (ms : List (List Char))
    (rs : List PromptInput) (bound : Nat) (h : 1 ≤ bound) :
    1 ≤ (resolveLoop ms rs bound).2 := by
  cases bound with
  | zero => omega
  | succ f =>
      cases rs with
      | nil =>
          have hnone : parseSelection [] ms.length = none := rfl
          simp [resolveLoop, hnone]
      | cons r rs' =>
          cases r with
          | interrupt => simp [resolveLoop]
          | text s =>
              cases hp : parseSelection s ms.length with
              | some v => simp [resolveLoop, hp]
              | none => simp [resolveLoop, hp]

/-- C4: zero matches fail with `NoMatchError` with no prompt and no retry;
a unique match is returned with zero prompt invocations; two or more matches
prompt at least once; an invalid response (out-of-range number, empty
response, unparseable text) re-prompts instead of failing, adding one prompt
invocation; and when every response is invalid the retry bound is exhausted
and `resolve` fails with `SelectionAbortedError` after exactly `bound`
prompts. -/
theorem C4_selector_state_machine :
    (∀ (rs : List PromptInput) (bound : Nat),
      resolve [] rs bound = (Except.error SelectError.noMatch, 0))
    ∧ (∀ (m : List Char) (rs : List PromptInput) (bound : Nat),
      resolve [m] rs bound = (Except.ok m, 0))
    ∧ (∀ (ms : List (List Char)) (rs : List PromptInput) (bound : Nat),
      2 ≤ ms.length → 1 ≤ bound → 1 ≤ (resolve ms rs bound).2)
    ∧ (∀ (ms : List (List Char)) (x : PromptInput) (rs : List PromptInput)
        (bound : Nat), 2 ≤ ms.length → isInvalidFor ms.length x = true →
      resolve ms (x :: rs) (bound + 1) =
        ((resolve ms rs bound).1, (resolve ms rs bound).2 + 1))
    ∧ (∀ (ms : List (List Char)) (rs : List PromptInput) (bound : Nat),
      2 ≤ ms.length → (∀ r ∈ rs, isInvalidFor ms.length r = true) →
      resolve ms rs bound =
        (Except.error SelectError.selectionAborted, bound)) := by
  refine ⟨fun rs bound => rfl, fun m rs bound => rfl, ?_, ?_, ?_⟩
  · intro ms rs bound h2 hb
    cases ms with
    | nil => simp at h2
    | cons m1 t =>
        cases t with
        | nil => simp at h2
        | cons m2 mt => exact resolveLoop_prompts_once (m1 :: m2 :: mt) rs bound hb
  · intro ms x rs bound h2 hx
    cases ms with
    | nil => simp at h2
    | cons m1 t =>
        cases t with
        | nil => simp at h2
        | cons m2 mt =>
            cases x with
            | interrupt => simp [isInvalidFor] at hx
            | text s =>
                have hnone : parseSelection s (m1 :: m2 :: mt).length = none := by
                  simpa [isInvalidFor, Option.isNone_iff_eq_none] using hx
                show resolveLoop (m1 :: m2 :: mt)
                    (PromptInput.text s :: rs) (bound + 1) =
                  ((resolveLoop (m1 :: m2 :: mt) rs bound).1,
                    (resolveLoop (m1 :: m2 :: mt) rs bound).2 + 1)
                simp only [List.length_cons] at hnone
                simp [resolveLoop, hnone]
  · intro ms rs bound h2 hall
    cases ms with
    | nil => simp at h2
    | cons m1 t =>
        cases t with
        | nil => simp at h2
        | cons m2 mt => exact resolveLoop_all_invalid (m1 :: m2 :: mt) rs bound hall

/-- Witness for C4: two matches, one unparseable response, retry bound two:
the selection aborts after exactly two prompts. -/
theorem C4_selector_state_machine_witness :
    resolve [("a".data), ("b".data)] [PromptInput.text ("x".data)] 2 =
      (Except.error SelectError.selectionAborted, 2) :=
  C4_selector_state_machine.2.2.2.2 [("a".data), ("b".data)]
    [PromptInput.text ("x".data)] 2 (by decide) (by decide)

/-- The three entry actions of `main` in `src/qpass/cli.py`: the default
reveal-and-copy action, the edit action, and the list action. -/
inductive CliAction where
  | show_matching
  | edit_matching
  | list_matching
deriving DecidableEq

/-- Parsed command line options of `main` (`src/qpass/cli.py` lines 94-97). -/
inductive CliOption where
  | edit
  | list
  | noClipboard
  | passwordStore (dir : List Char)
  | verbose
  | quiet
  | help
deriving DecidableEq

/-- The keyword-argument dictionary `program_opts` built by `main`. -/
structure ProgramOpts where
  clipboard_enabled : Bool := true
  directory : Option (List Char) := none
deriving DecidableEq

/-- Option-processing loop of `main` (`src/qpass/cli.py` lines 92-115):
starting from the default action, `-e`/`--edit` and `-l`/`--list` overwrite
the action variable, `-n` and `-p` update `program_opts`, `-v`/`-q` only
adjust logging verbosity, and `-h` prints the usage text and returns
immediately (modelled as `none`). -/
def processOptions : List CliOption → CliAction → ProgramOpts →
    Option (CliAction × ProgramOpts)
  | [], a, o => some (a, o)
  | CliOption.edit :: rest, _, o =>
      processOptions rest CliAction.edit_matching o
  | CliOption.list :: rest, _, o =>
      processOptions rest CliAction.list_matching o
  | CliOption.noClipboard :: rest, a, o =>
      processOptions rest a { o with clipboard_enabled := false }
  | CliOption.passwordStore d :: rest, a, o =>
      processOptions rest a { o with directory := some d }
  | CliOption.verbose :: rest, a, o => processOptions rest a o
  | CliOption.quiet :: rest, a, o => processOptions rest a o
  | CliOption.help :: _, _, _ => none

/-- Observable side effects of one invocation: terminal output, the
clipboard/terminal password handover, the editor subprocess, one prompt
invocation of the Selector, and an error logged by `main`. -/
inductive Effect where
  | output (s : List Char)
  | copyPassword (name : List Char)
  | execEdit (name : List Char)
  | promptInvoked
  | logError (e : SelectError)
deriving DecidableEq

/-- Exceptions escaping an action into `main`: a `PasswordStoreError` (the
base class of the no-match and selection-aborted errors) or the
`KeyboardInterrupt` of an interrupted prompt. -/
inductive RunError where
  | storeError (e : SelectError)
  | keyboardInterrupt
deriving DecidableEq

/-- Modelled from the spec: how the Selector's failure kinds surface as
exceptions — `NoMatchError` and `SelectionAbortedError` are
`PasswordStoreError`s, cancellation propagates as a distinct
`KeyboardInterrupt` signal. -/
def toRunError : SelectError → RunError
  | SelectError.cancelled => RunError.keyboardInterrupt
  | e => RunError.storeError e

/-- Modelled from the spec: `PasswordStore.select_entry` (missing source):
run the Query Engine over the catalog, then resolve the match set through
the Selector with the injected prompt responses and retry bound. -/
def select_entry (catalog args : List (List Char))
    (responses : List PromptInput) (bound : Nat) :
    Except SelectError (List Char) × Nat :=
  resolve (search args catalog) responses bound

/-- Prompt invocations rendered as an effect trace. -/
def promptEffects (c : Nat) : List Effect :=
  List.replicate c Effect.promptInvoked

/-- Embedding of `show_matching_entry` (`src/qpass/cli.py` lines 147-151):
select the entry first; only on success print the formatted entry and copy
its password (`fmt` stands for the external `program.format_entry`).  A
selection failure escapes before any output or copy. -/
def show_matching_entry (fmt : List Char → List Char)
    (catalog args : List (List Char)) (responses : List PromptInput)
    (bound : Nat) : List Effect × Option RunError :=
  match select_entry catalog args responses bound with
  | (Except.ok name, c) =>
      (promptEffects c ++
        [Effect.output (fmt name), Effect.copyPassword name], none)
  | (Except.error e, c) => (promptEffects c, some (toRunError e))

/-- Embedding of `edit_matching_entry` (`src/qpass/cli.py` lines 136-139):
select the entry, then hand it to the external editor invocation. -/
def edit_matching_entry (catalog args : List (List Char))
    (responses : List PromptInput) (bound : Nat) :
    List Effect × Option RunError :=
  match select_entry catalog args responses bound with
  | (Except.ok name, c) => (promptEffects c ++ [Effect.execEdit name], none)
  | (Except.error e, c) => (promptEffects c, some (toRunError e))

/-- Newline join used when printing the matching entries. -/
def joinLines (xs : List (List Char)) : List Char :=
  List.intercalate ['\n'] xs

/-- Embedding of `list_matching_entries` (`src/qpass/cli.py` lines 142-144):
print the names found by the Query Engine, joined by newlines; the Selector
is never consulted. -/
def list_matching_entries (catalog args : List (List Char)) : List Effect :=
  [Effect.output (joinLines (search args catalog))]

/-- Dispatch of the selected action in `main` (`src/qpass/cli.py` line 125). -/
def dispatchAction (fmt : List Char → List Char) (a : CliAction)
    (catalog args : List (List Char)) (responses : List PromptInput)
    (bound : Nat) : List Effect × Option RunError :=
  match a with
  | CliAction.show_matching =>
      show_matching_entry fmt catalog args responses bound
  | CliAction.edit_matching => edit_matching_entry catalog args responses bound
  | CliAction.list_matching => (list_matching_entries catalog args, none)

/-- Exception handling around the action call in `main`
(`src/qpass/cli.py` lines 123-133): a `PasswordStoreError` is logged and the
process exits with status 1; a `KeyboardInterrupt` exits with status 1 with
no further output; otherwise the exit status is 0. -/
def executeAction (r : List Effect × Option RunError) : List Effect × Nat :=
  match r with
  | (effs, none) => (effs, 0)
  | (effs, some (RunError.storeError e)) => (effs ++ [Effect.logError e], 1)
  | (effs, some RunError.keyboardInterrupt) => (effs, 1)

/-- Outcome of one `main` run: either the usage text was printed and `main`
returned normally, or the action ran, producing an effect trace and an exit
status. -/
inductive MainResult where
  | usageShown
  | finished (effects : List Effect) (exitCode : Nat)
deriving DecidableEq

/-- Whether a `main` run terminated with a nonzero exit status. -/
def MainResult.isErrorExit : MainResult → Bool
  | MainResult.usageShown => false
  | MainResult.finished _ c => c != 0

/-- Embedding of `main` (`src/qpass/cli.py` lines 86-133): process the
options starting from the default `show_matching_entry` action; `-h` prints
the usage text and returns; with no keyword arguments and an action other
than the list action, print the usage text and return; otherwise run the
action under the exception handler. -/
def mainRun (fmt : List Char → List Char) (options : List CliOption)
    (arguments : List (List Char)) (catalog : List (List Char))
    (responses : List PromptInput) (bound : Nat) : MainResult :=
  match processOptions options CliAction.show_matching {} with
  | none => MainResult.usageShown
  | some (a, _) =>
      if arguments = [] ∧ a ≠ CliAction.list_matching then MainResult.usageShown
      else
        match executeAction
            (dispatchAction fmt a catalog arguments responses bound) with
        | (effs, code) => MainResult.finished effs code

theorem search_nil (catalog : List (List Char)) : search [] catalog = catalog := by
  simp [search]

/-- Counterexample to C6: with no options (so the default reveal action is
selected) and no keyword arguments, `main` prints the usage text and returns
normally — it signals no error at all, rather than raising an
`InvalidQueryError`. -/
theorem C6_counterexample :
    mainRun id [] [] [("Personal/Zabbix".data)] [] 3 = MainResult.usageShown ∧
      (mainRun id [] [] [("Personal/Zabbix".data)] [] 3).isErrorExit = false :=
  ⟨rfl, rfl⟩

/-- C6 (amended): when a single resolved entry is required (the reveal or
edit action) and the query is empty, `main` prints the usage text and
returns without resolving anything and without signalling an error; an empty
query reaches the action only for the list action, which then lists the
whole catalog. -/
theorem C6_empty_query_shows_usage :
    ∀ (fmt : List Char → List Char) (options : List CliOption)
      (catalog : List (List Char)) (responses : List PromptInput)
      (bound : Nat) (a : CliAction) (o : ProgramOpts),
      processOptions options CliAction.show_matching {} = some (a, o) →
      ((a ≠ CliAction.list_matching →
          mainRun fmt options [] catalog responses bound =
            MainResult.usageShown) ∧
        (a = CliAction.list_matching →
          mainRun fmt options [] catalog responses bound =
            MainResult.finished [Effect.output (joinLines catalog)] 0)) := by
  intro fmt options catalog responses bound a o hp
  constructor
  · intro hne
    unfold mainRun
    rw [hp]
    simp [hne]
  · intro heq
    subst heq
    unfold mainRun
    rw [hp]
    simp [dispatchAction, list_matching_entries, executeAction, search_nil]

/-- Witness for C6 (amended): a lone `--list` option with an empty query
lists the whole catalog. -/
theorem C6_empty_query_shows_usage_witness :
    mainRun id [CliOption.list] [] [("A".data)] [] 1 =
      MainResult.finished [Effect.output (joinLines [("A".data)])] 0 :=
  (C6_empty_query_shows_usage id [CliOption.list] [("A".data)] [] 1
    CliAction.list_matching {} rfl).2 rfl

/-- C7: in the reveal action the entry output and the clipboard copy occur
only after entry selection has returned successfully: when resolution fails
or is cancelled the effect trace of `show_matching_entry` contains nothing
but prompt invocations (no password is printed and none reaches the
clipboard), and on success the output and the copy follow the prompting. -/
theorem C7_no_side_effects_on_abort :
    ∀ (fmt : List Char → List Char) (catalog args : List (List Char))
      (responses : List PromptInput) (bound : Nat),
      ((∀ e, (select_entry catalog args responses bound).1 = Except.error e →
          ∀ eff ∈ (show_matching_entry fmt catalog args responses bound).1,
            eff = Effect.promptInvoked) ∧
        (∀ name,
          (select_entry catalog args responses bound).1 = Except.ok name →
          (show_matching_entry fmt catalog args responses bound).1 =
            promptEffects (select_entry catalog args responses bound).2 ++
              [Effect.output (fmt name), Effect.copyPassword name])) := by
  intro fmt catalog args responses bound
  rcases hs : select_entry catalog args responses bound with ⟨r, c⟩
  constructor
  · intro e he eff heff
    cases r with
    | ok name => simp at he
    | error e2 =>
        simp only [show_matching_entry, hs] at heff
        have : eff ∈ promptEffects c := by simpa using heff
        exact List.eq_of_mem_replicate this
  · intro name hn
    cases r with
    | error e2 => simp at hn
    | ok name2 =>
        have hnm : name2 = name := by simpa using hn
        subst hnm
        simp [show_matching_entry, hs]

/-- Witness for C7: a unique match is shown and copied after a successful
selection that never prompted. -/
theorem C7_no_side_effects_on_abort_witness :
    (show_matching_entry id [("Personal/Zabbix".data)] [("pe".data)] [] 3).1 =
      promptEffects
          (select_entry [("Personal/Zabbix".data)] [("pe".data)] [] 3).2 ++
        [Effect.output (id ("Personal/Zabbix".data)),
          Effect.copyPassword ("Personal/Zabbix".data)] :=
  (C7_no_side_effects_on_abort id [("Personal/Zabbix".data)]
    [("pe".data)] [] 3).2 ("Personal/Zabbix".data) (by rfl)

/-- C8: under the list action the Selector is bypassed entirely — the effect
trace is exactly one output of the newline-joined names matched by the Query
Engine (an order-preserving sub-sequence of the catalog, so in catalog
order), with no prompt invocation, no clipboard copy and no editor
invocation. -/
theorem C8_list_bypasses_selector :
    ∀ catalog args : List (List Char),
      (list_matching_entries catalog args =
        [Effect.output (joinLines
          (catalog.filter fun n => args.all fun t => term_matches t n))] ∧
      Effect.promptInvoked ∉ list_matching_entries catalog args ∧
      (∀ n, Effect.copyPassword n ∉ list_matching_entries catalog args) ∧
      (∀ n, Effect.execEdit n ∉ list_matching_entries catalog args) ∧
      List.Sublist (search args catalog) catalog) := by
  intro catalog args
  refine ⟨rfl, ?_, ?_, ?_, List.filter_sublist catalog⟩
  · simp [list_matching_entries]
  · intro n
    simp [list_matching_entries]
  · intro n
    simp [list_matching_entries]

/-- Witness for C8 at a concrete catalog with an empty query. -/
theorem C8_list_bypasses_selector_witness :
    list_matching_entries [("A".data)] [] =
      [Effect.output (joinLines [("A".data)])] :=
  (C8_list_bypasses_selector [("A".data)] []).1.trans (by decide)

/-- C9: a `NoMatchError` or `SelectionAbortedError` raised during resolution
propagates out of the reveal and edit actions to `main`, which logs the
error and exits with status 1; cancellation during prompting propagates as
the distinct `KeyboardInterrupt` signal, which `main` handles on a separate
path (exit status 1, nothing logged). -/
theorem C9_error_propagation :
    ∀ (fmt : List Char → List Char) (a : CliAction)
      (catalog args : List (List Char)) (responses : List PromptInput)
      (bound : Nat),
      (a = CliAction.show_matching ∨ a = CliAction.edit_matching) →
      ((∀ e, e ≠ SelectError.cancelled →
          (select_entry catalog args responses bound).1 = Except.error e →
          executeAction (dispatchAction fmt a catalog args responses bound) =
            (promptEffects (select_entry catalog args responses bound).2 ++
              [Effect.logError e], 1)) ∧
        ((select_entry catalog args responses bound).1 =
            Except.error SelectError.cancelled →
          executeAction (dispatchAction fmt a catalog args responses bound) =
            (promptEffects (select_entry catalog args responses bound).2,
              1))) := by
  intro fmt a catalog args responses bound ha
  rcases hs : select_entry catalog args responses bound with ⟨r, c⟩
  constructor
  · intro e hne he
    cases r with
    | ok name => simp at he
    | error e2 =>
        have he2 : e2 = e := by simpa using he
        subst he2
        rcases ha with rfl | rfl
        · cases e2 with
          | noMatch =>
              simp [dispatchAction, show_matching_entry, hs, executeAction,
                toRunError]
          | selectionAborted =>
              simp [dispatchAction, show_matching_entry, hs, executeAction,
                toRunError]
          | cancelled => exact absurd rfl hne
        · cases e2 with
          | noMatch =>
              simp [dispatchAction, edit_matching_entry, hs, executeAction,
                toRunError]
          | selectionAborted =>
              simp [dispatchAction, edit_matching_entry, hs, executeAction,
                toRunError]
          | cancelled => exact absurd rfl hne
  · intro he
    cases r with
    | ok name => simp at he
    | error e2 =>
        have he2 : e2 = SelectError.cancelled := by simpa using he
        subst he2
        rcases ha with rfl | rfl
        · simp [dispatchAction, show_matching_entry, hs, executeAction,
            toRunError]
        · simp [dispatchAction, edit_matching_entry, hs, executeAction,
            toRunError]

/-- Witness for C9: an empty match set in the reveal action is logged as a
no-match error with exit status 1. -/
theorem C9_error_propagation_witness :
    executeAction
        (dispatchAction id CliAction.show_matching [] [("x".data)] [] 3) =
      (promptEffects (select_entry [] [("x".data)] [] 3).2 ++
        [Effect.logError SelectError.noMatch], 1) :=
  (C9_error_propagation id CliAction.show_matching [] [("x".data)] [] 3
    (Or.inl rfl)).1 SelectError.noMatch (by decide) (by rfl)

/-- The action override contributed by one option: `-e` and `-l` overwrite
the action variable, every other option leaves it alone. -/
def actionOf : CliOption → Option CliAction
  | CliOption.edit => some CliAction.edit_matching
  | CliOption.list => some CliAction.list_matching
  | _ => none

theorem filterMap_eq_nil_of_none {α β : Type} (f : α → Option β) :
    ∀ l : List α, (∀ a ∈ l, f a = none) → l.filterMap f = []
  | [], _ => rfl
  | a :: l, h => by
      rw [List.filterMap_cons, h a (List.mem_cons_self _ _)]
      exact filterMap_eq_nil_of_none f l
        (fun b m => h b (List.mem_cons_of_mem _ m))

/-- C10: the executed action defaults to `show_matching_entry`; each
`-e`/`--edit` or `-l`/`--list` occurrence overwrites the action variable, so
when several are supplied the last one in parsed option order determines the
final action (here stated for option lists not cut short by `-h`), while
`-n`, `-p`, `-v` and `-q` never change the action; with no options and a
nonempty query the default reveal action runs. -/
theorem C10_last_action_option_wins :
    (∀ (options : List CliOption) (a0 : CliAction) (o0 : ProgramOpts),
      CliOption.help ∉ options →
      ∃ o1, processOptions options a0 o0 =
        some ((options.filterMap actionOf).getLastD a0, o1))
    ∧ (∀ (options : List CliOption) (a0 : CliAction) (o0 : ProgramOpts),
      CliOption.help ∉ options →
      (∀ opt ∈ options, actionOf opt = none) →
      ∃ o1, processOptions options a0 o0 = some (a0, o1))
    ∧ (∀ (fmt : List Char → List Char)
        (arguments catalog : List (List Char))
        (responses : List PromptInput) (bound : Nat), arguments ≠ [] →
      mainRun fmt [] arguments catalog responses bound =
        MainResult.finished
          (executeAction
            (show_matching_entry fmt catalog arguments responses bound)).1
          (executeAction
            (show_matching_entry fmt catalog arguments responses bound)).2) := by
  have main : ∀ (options : List CliOption) (a0 : CliAction) (o0 : ProgramOpts),
      CliOption.help ∉ options →
      ∃ o1, processOptions options a0 o0 =
        some ((options.filterMap actionOf).getLastD a0, o1) := by
    intro options
    induction options with
    | nil =>
        intro a0 o0 h
        exact ⟨o0, rfl⟩
    | cons opt rest ih =>
        intro a0 o0 h
        have hrest : CliOption.help ∉ rest := fun m =>
          h (List.mem_cons_of_mem _ m)
        cases opt with
        | edit =>
            obtain ⟨o1, ho⟩ := ih CliAction.edit_matching o0 hrest
            refine ⟨o1, ?_⟩
            show processOptions rest CliAction.edit_matching o0 = _
            rw [ho]
            have hfm : (CliOption.edit :: rest).filterMap actionOf =
                CliAction.edit_matching :: rest.filterMap actionOf := by
              simp [List.filterMap_cons, actionOf]
            rw [hfm, List.getLastD_cons]
        | list =>
            obtain ⟨o1, ho⟩ := ih CliAction.list_matching o0 hrest
            refine ⟨o1, ?_⟩
            show processOptions rest CliAction.list_matching o0 = _
            rw [ho]
            have hfm : (CliOption.list :: rest).filterMap actionOf =
                CliAction.list_matching :: rest.filterMap actionOf := by
              simp [List.filterMap_cons, actionOf]
            rw [hfm, List.getLastD_cons]
        | noClipboard =>
            obtain ⟨o1, ho⟩ :=
              ih a0 { o0 with clipboard_enabled := false } hrest
            refine ⟨o1, ?_⟩
            show processOptions rest a0 { o0 with clipboard_enabled := false } = _
            rw [ho]
            simp [List.filterMap_cons, actionOf]
        | passwordStore d =>
            obtain ⟨o1, ho⟩ := ih a0 { o0 with directory := some d } hrest
            refine ⟨o1, ?_⟩
            show processOptions rest a0 { o0 with directory := some d } = _
            rw [ho]
            simp [List.filterMap_cons, actionOf]
        | verbose =>
            obtain ⟨o1, ho⟩ := ih a0 o0 hrest
            refine ⟨o1, ?_⟩
            show processOptions rest a0 o0 = _
            rw [ho]
            simp [List.filterMap_cons, actionOf]
        | quiet =>
            obtain ⟨o1, ho⟩ := ih a0 o0 hrest
            refine ⟨o1, ?_⟩
            show processOptions rest a0 o0 = _
            rw [ho]
            simp [List.filterMap_cons, actionOf]
        | help => exact absurd (List.mem_cons_self _ _) h
  refine ⟨main, ?_, ?_⟩
  · intro options a0 o0 h hnone
    obtain ⟨o1, ho⟩ := main options a0 o0 h
    refine ⟨o1, ?_⟩
    rw [ho, filterMap_eq_nil_of_none actionOf options hnone]
    rfl
  · intro fmt arguments catalog responses bound h
    unfold mainRun
    show (if arguments = [] ∧ CliAction.show_matching ≠ CliAction.list_matching
        then MainResult.usageShown
      else
        match executeAction (dispatchAction fmt CliAction.show_matching
            catalog arguments responses bound) with
        | (effs, code) => MainResult.finished effs code) = _
    rw [if_neg (fun hc => h hc.1)]
    rcases hx : executeAction (dispatchAction fmt CliAction.show_matching
        catalog arguments responses bound) with ⟨effs, code⟩
    simp [dispatchAction] at hx
    simp [dispatchAction, hx]

/-- Witness for C10: with options verbose, edit, list, edit the final action
is the last override. -/
theorem C10_last_action_option_wins_witness :
    ∃ o1, processOptions
        [CliOption.verbose, CliOption.edit, CliOption.list, CliOption.edit]
        CliAction.show_matching {} =
      some ((([CliOption.verbose, CliOption.edit, CliOption.list,
          CliOption.edit].filterMap actionOf).getLastD
            CliAction.show_matching), o1) :=
  C10_last_action_option_wins.1
    [CliOption.verbose, CliOption.edit, CliOption.list, CliOption.edit]
    CliAction.show_matching {} (by decide)
